import Mathlib

/-!
Verification of the `stats_rank` tool (src/main.rs): a shallow embedding of
its JSON handling, stat aggregation, sorting and identity-map loading, with
theorems settling the specified behaviour.
-/

set_option maxRecDepth 8000

namespace StatsRank

/-- Model of the dynamic JSON values of the `json` crate used by the tool.
Numbers are modelled as rationals; objects keep their fields in order. -/
inductive JsonValue where
  | null : JsonValue
  | bool : Bool → JsonValue
  | num : ℚ → JsonValue
  | str : String → JsonValue
  | arr : List JsonValue → JsonValue
  | obj : List (String × JsonValue) → JsonValue

/-- Model of `JsonValue::is_null`. -/
def JsonValue.is_null : JsonValue → Bool
  | .null => true
  | _ => false

/-- Model of `JsonValue::is_number`. -/
def JsonValue.is_number : JsonValue → Bool
  | .num _ => true
  | _ => false

/-- Model of `JsonValue::is_object`. -/
def JsonValue.is_object : JsonValue → Bool
  | .obj _ => true
  | _ => false

/-- Model of `JsonValue::as_f64`: only numbers convert. -/
def JsonValue.as_f64 : JsonValue → Option ℚ
  | .num q => some q
  | _ => none

/-- Model of `JsonValue::as_str`: only strings convert. -/
def JsonValue.as_str : JsonValue → Option String
  | .str s => some s
  | _ => none

/-- Model of `JsonValue::entries`: the fields of an object, else empty. -/
def JsonValue.entries : JsonValue → List (String × JsonValue)
  | .obj fs => fs
  | _ => []

/-- Model of `JsonValue::members`: the elements of an array, else empty. -/
def JsonValue.members : JsonValue → List JsonValue
  | .arr xs => xs
  | _ => []

/-- Model of the `json` crate's indexing `v[k]`: the value of field `k` of an
object, and `Null` for a missing field or a non-object. -/
def JsonValue.index (v : JsonValue) (k : String) : JsonValue :=
  match v with
  | .obj fs =>
    match fs.find? (fun f => f.1 == k) with
    | some f => f.2
    | none => .null
  | _ => .null

/-- Model of Rust `str::starts_with` on character lists. -/
def listStartsWith : List Char → List Char → Bool
  | _, [] => true
  | [], _ :: _ => false
  | a :: as, b :: bs => a == b && listStartsWith as bs

/-- Model of Rust `str::contains` (substring test) on character lists. -/
def listHasSubstr : List Char → List Char → Bool
  | [], needle => listStartsWith [] needle
  | a :: t, needle => listStartsWith (a :: t) needle || listHasSubstr t needle

/-- Model of Rust `str::to_lowercase` (as a character list). -/
def lowerList (s : String) : List Char := s.toList.map Char.toLower

/-- Model of `hay.to_lowercase().contains(&needle.to_lowercase())` from the
substring selection test in `main`. -/
def strContainsSub (hay needle : String) : Bool :=
  listHasSubstr (lowerList hay) (lowerList needle)

/-- Model of Rust `str::split(c)` on character lists. -/
def splitOnChar (c : Char) : List Char → List (List Char)
  | [] => [[]]
  | x :: xs =>
    if x == c then [] :: splitOnChar c xs
    else
      match splitOnChar c xs with
      | [] => [[x]]
      | s :: ss => (x :: s) :: ss

/-- Model of Rust `str::trim` on character lists (ASCII whitespace). -/
def trimChars (l : List Char) : List Char :=
  ((l.dropWhile Char.isWhitespace).reverse.dropWhile Char.isWhitespace).reverse

/-- The filter of `get_level_name`: `x.starts_with("level-name")`. -/
def levelNameLine (x : List Char) : Bool := listStartsWith x ("level-name".toList)

/-- The value extraction of `get_level_name`:
`x.split("=").skip(1).take(1).next()` then `unwrap_or("world").trim()`. -/
def levelNameValue (x : List Char) : List Char :=
  trimChars ((((splitOnChar '=' x).drop 1).head?).getD ("world".toList))

/-- Model of `fn get_level_name` (src/main.rs): lines of the properties file
that start with `level-name`, mapped to their trimmed second `=`-segment
(default `world`), first such line; `None` models the `Err` return. -/
def get_level_name (content : String) : Option String :=
  ((((splitOnChar '\n' content.toList).filter levelNameLine).map levelNameValue).head?).map
    String.mk

/-- The `key` of a `key=value` line: the text before the first `=`. -/
def lineKey (x : List Char) : List Char := (splitOnChar '=' x).headD []

/-- The level-name lookup as the spec words it (for comparison with
`get_level_name`): the value of the first line whose KEY is exactly
`level-name`. -/
def get_level_name_spec (content : String) : Option String :=
  ((((splitOnChar '\n' content.toList).filter
      (fun x => lineKey x == "level-name".toList)).map levelNameValue).head?).map String.mk

/-- Model of the CLI arguments relevant to the core (struct `Args`). -/
structure Args where
  key : String
  inverse : Bool
  exact : Bool
  show_uuid : Bool
  limit : Nat

/-- One observation: `(uuid, value)` as pushed into a bucket's `Vec`. -/
abbrev Obs := String × JsonValue

/-- Model of the accumulation map
`HashMap<String, (Vec<(String, JsonValue)>, bool)>` as an association list:
bucket key ↦ (observations in insertion order, numeric flag). -/
abbrev Rank := List (String × (List Obs × Bool))

/-- Model of `rank.entry(key).or_insert((Vec::new(), value.is_number())).0
.push((uuid, value))`: append to the bucket, creating it with the numeric
flag of the first value. -/
def pushObs (rank : Rank) (key uuid : String) (v : JsonValue) : Rank :=
  match rank with
  | [] => [(key, ([(uuid, v)], v.is_number))]
  | (k, (vec, numf)) :: rest =>
    if k == key then (k, (vec ++ [(uuid, v)], numf)) :: rest
    else (k, (vec, numf)) :: pushObs rest key uuid v

/-- The exact-mode scan over the categories of a nested-schema record:
skip (`continue`) null lookups, push the first non-null one and `break`. -/
def processNestedExact (key uuid : String) (rank : Rank) :
    List (String × JsonValue) → Rank
  | [] => rank
  | (_, stats) :: rest =>
    let value := stats.index key
    if value.is_null then processNestedExact key uuid rank rest
    else pushObs rank key uuid value

/-- The substring-mode scan over the categories of a nested-schema record:
every field of every category whose lowercased name contains the lowercased
query is pushed under `category.fieldName`. -/
def processNestedSub (key uuid : String) (cats : List (String × JsonValue))
    (rank : Rank) : Rank :=
  cats.foldl
    (fun rank c =>
      c.2.entries.foldl
        (fun rank f =>
          if strContainsSub f.1 key then
            pushObs rank (c.1 ++ "." ++ f.1) uuid f.2
          else rank)
        rank)
    rank

/-- The exact-mode handling of a flat-schema record: look the key up at top
level, skip if null, else push under the key itself. -/
def processFlatExact (key uuid : String) (j : JsonValue) (rank : Rank) : Rank :=
  let value := j.index key
  if value.is_null then rank else pushObs rank key uuid value

/-- The substring-mode handling of a flat-schema record: every top-level
field whose lowercased name contains the lowercased query is pushed. -/
def processFlatSub (key uuid : String) (j : JsonValue) (rank : Rank) : Rank :=
  j.entries.foldl
    (fun rank f =>
      if strContainsSub f.1 key then pushObs rank f.1 uuid f.2 else rank)
    rank

/-- Model of the per-record part of `main`'s stats loop: schema detection by
`json["stats"].is_object()`, then the branch selected by `args.exact`. -/
def processRecord (args : Args) (uuid : String) (j : JsonValue) (rank : Rank) :
    Rank :=
  if (j.index "stats").is_object then
    if args.exact then processNestedExact args.key uuid rank (j.index "stats").entries
    else processNestedSub args.key uuid (j.index "stats").entries rank
  else
    if args.exact then processFlatExact args.key uuid j rank
    else processFlatSub args.key uuid j rank

/-- Model of `path.file_name().split('.').next()`: the text before the first
dot, the whole name when it has no dot. -/
def uuidOfFileName (s : String) : String :=
  String.mk (s.toList.takeWhile (fun c => c != '.'))

/-- One entry yielded by `read_dir` over the stats directory: a failed entry
read, a subdirectory, or a file whose content either parsed to a `JsonValue`
or could not be opened, read or parsed (`none`). -/
inductive DirEntry where
  | err : DirEntry
  | dir : String → DirEntry
  | file : String → Option JsonValue → DirEntry

/-- Model of `main`'s stats loop: a failed entry read is logged and skipped,
a directory is skipped, a file whose open/read/parse failed propagates the
error out of `main` (the `?` operator), and a parsed file is processed. -/
def runStats (args : Args) : List DirEntry → Rank → Except String Rank
  | [], rank => .ok rank
  | .err :: rest, rank => runStats args rest rank
  | .dir _ :: rest, rank => runStats args rest rank
  | .file name content :: rest, rank =>
    match content with
    | none => .error "stat file could not be opened, read, or parsed"
    | some j => runStats args rest (processRecord args (uuidOfFileName name) j rank)

/-- Model of `main` from level-name determination onward: a missing level
name is fatal, otherwise the stats loop runs from an empty rank map. -/
def runMain (props : String) (args : Args) (entries : List DirEntry) :
    Except String Rank :=
  match get_level_name props with
  | none => .error "The level name cannot be found"
  | some _ => runStats args entries []

/-- The comparator of the sort in `main`, on tagged observations carrying
their `as_f64` conversion: `a.partial_cmp(b)` ascending, `b.partial_cmp(a)`
when `inverse` is set. -/
def obsLe (inverse : Bool) (a b : Obs × ℚ) : Bool :=
  if inverse then decide (b.2 ≤ a.2) else decide (a.2 ≤ b.2)

/-- The sort comparator as a decidable relation. -/
def obsRel (inverse : Bool) (a b : Obs × ℚ) : Prop := obsLe inverse a b = true

instance obsRelDecidable (inverse : Bool) : DecidableRel (obsRel inverse) :=
  fun a b => inferInstanceAs (Decidable (obsLe inverse a b = true))

/-- The `as_f64().unwrap()` calls of the sort comparator: tag every
observation with its conversion, failing (`None`, the panic) as soon as one
observation does not convert. -/
def convAll : List Obs → Option (List (Obs × ℚ))
  | [] => some []
  | p :: ps =>
    match p.2.as_f64 with
    | none => none
    | some q =>
      match convAll ps with
      | none => none
      | some t => some (((p, q)) :: t)

/-- Model of `rank.sort_unstable_by(...)` on one bucket: with at most one
observation the comparator never runs; otherwise every observation is
converted by `as_f64().unwrap()` (a failed conversion is the panic, `none`)
and the bucket is sorted by the comparator. -/
def sortBucket (inverse : Bool) (obs : List Obs) : Option (List Obs) :=
  if obs.length ≤ 1 then some obs
  else
    match convAll obs with
    | none => none
    | some tagged => some ((List.insertionSort (obsRel inverse) tagged).map Prod.fst)

/-- Model of the presentation of one bucket (the `if num` around the sort):
a numeric-flagged bucket is sorted, any other keeps insertion order. -/
def presentBucket (inverse numf : Bool) (obs : List Obs) : Option (List Obs) :=
  if numf then sortBucket inverse obs else some obs

/-- Model of the `HashMap<String, String>` of `IdMap` as a lookup
function. -/
abbrev IdTable := String → Option String

/-- The empty identity table. -/
def IdTable.empty : IdTable := fun _ => none

/-- `HashMap::insert`: later inserts overwrite. -/
def IdTable.insert (m : IdTable) (k v : String) : IdTable :=
  fun x => if x == k then some v else m x

/-- Model of the loop of `IdMap::load_whitelist` over the parsed array's
members: each entry must yield string `uuid` and `name` fields, failing which
loading stops with an error (`false`) keeping the map built so far; a
well-formed entry is inserted only when its uuid is not already present. -/
def load_whitelist_entries (m : IdTable) : List JsonValue → IdTable × Bool
  | [] => (m, true)
  | v :: rest =>
    match (v.index "uuid").as_str with
    | none => (m, false)
    | some uuid =>
      match (v.index "name").as_str with
      | none => (m, false)
      | some name =>
        load_whitelist_entries
          (if (m uuid).isSome then m else m.insert uuid name) rest

/-- Model of `IdMap::load_whitelist` on parsed JSON. -/
def load_whitelist (m : IdTable) (j : JsonValue) : IdTable × Bool :=
  load_whitelist_entries m j.members

/-- Model of the loop of `IdMap::load_user_name_cache` over the parsed
object's entries: each value must be a string, failing which loading stops
with an error keeping the map built so far; inserts are unconditional. -/
def load_user_name_cache_entries (m : IdTable) :
    List (String × JsonValue) → IdTable × Bool
  | [] => (m, true)
  | (uuid, nv) :: rest =>
    match nv.as_str with
    | none => (m, false)
    | some name => load_user_name_cache_entries (m.insert uuid name) rest

/-- Model of `IdMap::load_user_name_cache` on parsed JSON. -/
def load_user_name_cache (m : IdTable) (j : JsonValue) : IdTable × Bool :=
  load_user_name_cache_entries m j.entries

/-- Model of the loop of `IdMap::load_user_name` over the parsed array's
members: like the whitelist loop but inserting unconditionally. -/
def load_user_name_entries (m : IdTable) : List JsonValue → IdTable × Bool
  | [] => (m, true)
  | v :: rest =>
    match (v.index "uuid").as_str with
    | none => (m, false)
    | some uuid =>
      match (v.index "name").as_str with
      | none => (m, false)
      | some name => load_user_name_entries (m.insert uuid name) rest

/-- Model of `IdMap::load_user_name` on parsed JSON. -/
def load_user_name (m : IdTable) (j : JsonValue) : IdTable × Bool :=
  load_user_name_entries m j.members

/-- Model of the identity-map construction in `main`: whitelist, then user
name cache, then user cache (registry), each failure logged and ignored,
the partially filled map kept. -/
def buildIdMap (wl cache reg : JsonValue) : IdTable :=
  (load_user_name ((load_user_name_cache ((load_whitelist IdTable.empty wl).1) cache).1) reg).1

/-- The `(uuid, name)` string fields of one identity entry (defaults only
ever used on well-formed entries). -/
def pairOf (v : JsonValue) : String × String :=
  (((v.index "uuid").as_str).getD "", ((v.index "name").as_str).getD "")

/-- Well-formedness of one identity entry: both fields are strings. -/
def wfEntry (v : JsonValue) : Bool :=
  ((v.index "uuid").as_str).isSome && ((v.index "name").as_str).isSome

/-- First match in an association list of `(uuid, name)` pairs. -/
def lookupFirst (ps : List (String × String)) (k : String) : Option String :=
  (ps.find? (fun p => p.1 == k)).map (fun p => p.2)

/-- Last match in an association list of `(uuid, name)` pairs. -/
def lookupLast (ps : List (String × String)) (k : String) : Option String :=
  lookupFirst ps.reverse k

/-- The pairs of an identity array source. -/
def arrPairs (j : JsonValue) : List (String × String) := j.members.map pairOf

/-- The pairs of the name-cache object source. -/
def cachePairs (j : JsonValue) : List (String × String) :=
  j.entries.map (fun e => (e.1, (e.2.as_str).getD ""))

/-- The pure effect of a successful whitelist load: conditional inserts. -/
def applyWl (m : IdTable) (ps : List (String × String)) : IdTable :=
  ps.foldl (fun m p => if (m p.1).isSome then m else m.insert p.1 p.2) m

/-- The pure effect of a successful unconditional load. -/
def applyOver (m : IdTable) (ps : List (String × String)) : IdTable :=
  ps.foldl (fun m p => m.insert p.1 p.2) m

/-- Membership of one observation in the bucket named `key` of a rank map. -/
def obsIn (rank : Rank) (key uuid : String) (v : JsonValue) : Prop :=
  ∃ e ∈ rank, e.1 = key ∧ (uuid, v) ∈ e.2.1

/-- The value the exact-mode nested scan ends up pushing: the lookup of the
key in the first category where it is non-null. -/
def firstHit (cats : List (String × JsonValue)) (key : String) : Option JsonValue :=
  (cats.map (fun c => c.2.index key)).find? (fun v => !v.is_null)

/-- Total number of observations stored across all buckets. -/
def countObs : Rank → Nat
  | [] => 0
  | e :: r => e.2.1.length + countObs r

/-- The numeric flag of the bucket named `key`, when the bucket exists. -/
def flagOf (rank : Rank) (key : String) : Option Bool :=
  (rank.find? (fun e => e.1 == key)).map (fun e => e.2.2)

end StatsRank

namespace StatsRank

theorem head?_filter_map {α β : Type} (p : α → Bool) (f : α → β) (l : List α) :
    ((l.filter p).map f).head? = (l.find? p).map f := by
  induction l with
  | nil => rfl
  | cons a t ih =>
    by_cases h : p a
    · simp [List.filter_cons, h]
    · simp [List.filter_cons, h, ih]

theorem mk_toList (s : String) : String.mk s.toList = s := by
  cases s
  rfl

/-- C1 (counterexample): a stat file whose content cannot be parsed makes the
whole run fail with an error instead of being logged and skipped — even
though the remaining files (here one well-formed record, processed fine when
alone) could still be processed; so the run can fail even when the level
name and the stats directory are fine. -/
theorem c1_counterexample :
    runStats { key := "b", inverse := false, exact := false, show_uuid := false, limit := 9961 }
      [DirEntry.file "bad.json" none,
       DirEntry.file "good.json" (some (JsonValue.obj [("abc", JsonValue.num 1)]))] []
      = Except.error "stat file could not be opened, read, or parsed"
    ∧ runStats { key := "b", inverse := false, exact := false, show_uuid := false, limit := 9961 }
      [DirEntry.file "good.json" (some (JsonValue.obj [("abc", JsonValue.num 1)]))] []
      = Except.ok [("abc", ([("good", JsonValue.num 1)], true))] :=
  ⟨rfl, rfl⟩

/-- C1 (amended): only a failed directory-entry read is logged and skipped
(directories are silently skipped too); a stat file that cannot be opened,
read, or parsed aborts the entire run with an error, and a missing
`level-name` line also makes the run fail. -/
theorem c1_error_propagation (args : Args) (rest : List DirEntry) (rank : Rank)
    (name : String) :
    runStats args (DirEntry.err :: rest) rank = runStats args rest rank
    ∧ runStats args (DirEntry.dir name :: rest) rank = runStats args rest rank
    ∧ runStats args (DirEntry.file name none :: rest) rank
        = Except.error "stat file could not be opened, read, or parsed"
    ∧ runMain "other=1" args rest = Except.error "The level name cannot be found" :=
  ⟨rfl, rfl, rfl, rfl⟩

/-- C9 (counterexample): `get_level_name` selects the first line that merely
STARTS WITH `level-name`, not the first line whose key is `level-name`: on
`level-nameX=a\nlevel-name=b` the code yields `a` while the first line whose
key is exactly `level-name` has value `b`. -/
theorem c9_counterexample :
    get_level_name "level-nameX=a\nlevel-name=b" = some "a"
    ∧ get_level_name_spec "level-nameX=a\nlevel-name=b" = some "b" :=
  ⟨by decide, by decide⟩

/-- C9 (amended): the level name is the trimmed text between the first and
second `=` of the first line that starts with `level-name`; a line with no
`=` at all defaults to `world`, a line `level-name=` yields the empty
string, and the operation fails only when no line starts with
`level-name`. -/
theorem c9_level_name :
    (∀ content : String,
      get_level_name content =
        ((splitOnChar '\n' content.toList).find? levelNameLine).map
          (fun x => String.mk (levelNameValue x)))
    ∧ get_level_name "level-name" = some "world"
    ∧ get_level_name "level-name=" = some ""
    ∧ get_level_name "level-name=  my world \nfoo" = some "my world"
    ∧ get_level_name "foo=bar" = none := by
  refine ⟨?_, by decide, by decide, by decide, by decide⟩
  intro content
  unfold get_level_name
  rw [head?_filter_map, Option.map_map]
  rfl

/-- C10: directory entries that are directories are skipped by the stats
loop; the identifier of a file entry is the portion of the filename before
the first `.`, and a filename with no `.` yields the whole filename. -/
theorem c10_dirs_skipped_and_identifier :
    (∀ (args : Args) (s : String) (rest : List DirEntry) (rank : Rank),
      runStats args (DirEntry.dir s :: rest) rank = runStats args rest rank)
    ∧ (∀ s : String, ('.' : Char) ∉ s.toList → uuidOfFileName s = s)
    ∧ (∀ a b : String, ('.' : Char) ∉ a.toList → uuidOfFileName (a ++ "." ++ b) = a) := by
  refine ⟨fun args s rest rank => rfl, ?_, ?_⟩
  · intro s h
    unfold uuidOfFileName
    have hall : ∀ x ∈ s.toList, (x != '.') = true := by
      intro x hx
      have hxne : x ≠ '.' := fun he => h (he ▸ hx)
      simpa using hxne
    rw [List.takeWhile_eq_self_iff.mpr hall, mk_toList]
  · intro a b h
    unfold uuidOfFileName
    have hall : ∀ x ∈ a.toList, (x != '.') = true := by
      intro x hx
      have hxne : x ≠ '.' := fun he => h (he ▸ hx)
      simpa using hxne
    have hdata : (a ++ "." ++ b).toList = a.toList ++ ('.' :: b.toList) := by
      show (a ++ "." ++ b).data = a.data ++ ('.' :: b.data)
      simp [String.data_append]
    rw [hdata, List.takeWhile_append_of_pos hall,
      List.takeWhile_cons_of_neg (by simp), List.append_nil, mk_toList]

theorem obsIn_cons (x : String × (List Obs × Bool)) (r : Rank) (k u : String)
    (w : JsonValue) :
    obsIn (x :: r) k u w ↔ (x.1 = k ∧ (u, w) ∈ x.2.1) ∨ obsIn r k u w := by
  constructor
  · rintro ⟨e, he, hek, hm⟩
    rcases List.mem_cons.mp he with he1 | he2
    · exact Or.inl ⟨he1 ▸ hek, he1 ▸ hm⟩
    · exact Or.inr ⟨e, he2, hek, hm⟩
  · rintro (⟨hek, hm⟩ | ⟨e, he, hek, hm⟩)
    · exact ⟨x, List.mem_cons_self _ _, hek, hm⟩
    · exact ⟨e, List.mem_cons_of_mem _ he, hek, hm⟩

theorem pushObs_obsIn (rank : Rank) (key uuid : String) (v : JsonValue)
    (k u : String) (w : JsonValue) (h : obsIn (pushObs rank key uuid v) k u w) :
    obsIn rank k u w ∨ (k = key ∧ u = uuid ∧ w = v) := by
  induction rank with
  | nil =>
    obtain ⟨e, he, hek, hm⟩ := h
    have he1 : e = (key, ([(uuid, v)], v.is_number)) := by simpa [pushObs] using he
    subst he1
    have hm1 : (u, w) = (uuid, v) := by simpa using hm
    exact Or.inr ⟨hek.symm, (Prod.mk.injEq _ _ _ _).mp hm1 |>.1,
      (Prod.mk.injEq _ _ _ _).mp hm1 |>.2⟩
  | cons hd rest ih =>
    rcases hd with ⟨k0, vec, numf⟩
    by_cases hk : (k0 == key) = true
    · have hpush : pushObs ((k0, (vec, numf)) :: rest) key uuid v
          = (k0, (vec ++ [(uuid, v)], numf)) :: rest := by
        simp [pushObs, hk]
      rw [hpush, obsIn_cons] at h
      rcases h with ⟨hek, hm⟩ | h2
      · rcases List.mem_append.mp hm with hin | hone
        · exact Or.inl ((obsIn_cons _ _ _ _ _).mpr (Or.inl ⟨hek, hin⟩))
        · have hm1 : (u, w) = (uuid, v) := by simpa using hone
          have hkey : k0 = key := by simpa using hk
          exact Or.inr ⟨hek ▸ hkey, (Prod.mk.injEq _ _ _ _).mp hm1 |>.1,
            (Prod.mk.injEq _ _ _ _).mp hm1 |>.2⟩
      · exact Or.inl ((obsIn_cons _ _ _ _ _).mpr (Or.inr h2))
    · have hpush : pushObs ((k0, (vec, numf)) :: rest) key uuid v
          = (k0, (vec, numf)) :: pushObs rest key uuid v := by
        simp [pushObs, hk]
      rw [hpush, obsIn_cons] at h
      rcases h with ⟨hek, hm⟩ | h2
      · exact Or.inl ((obsIn_cons _ _ _ _ _).mpr (Or.inl ⟨hek, hm⟩))
      · rcases ih h2 with hl | hr
        · exact Or.inl ((obsIn_cons _ _ _ _ _).mpr (Or.inr hl))
        · exact Or.inr hr

theorem countObs_pushObs (rank : Rank) (key uuid : String) (v : JsonValue) :
    countObs (pushObs rank key uuid v) = countObs rank + 1 := by
  induction rank with
  | nil => simp [countObs, pushObs]
  | cons hd rest ih =>
    rcases hd with ⟨k0, vec, numf⟩
    by_cases hk : (k0 == key) = true
    · simp [countObs, pushObs, hk]
      omega
    · simp [countObs, pushObs, hk, ih]
      omega

theorem processNestedExact_eq (key uuid : String) (rank : Rank)
    (cats : List (String × JsonValue)) :
    processNestedExact key uuid rank cats =
      match firstHit cats key with
      | none => rank
      | some v => pushObs rank key uuid v := by
  induction cats with
  | nil => rfl
  | cons c rest ih =>
    by_cases h : (c.2.index key).is_null = true
    · have hf : firstHit (c :: rest) key = firstHit rest key := by
        simp [firstHit, List.find?_cons_of_neg, h]
      rw [show processNestedExact key uuid rank (c :: rest)
          = processNestedExact key uuid rank rest by
        rcases c with ⟨cn, stats⟩
        simp [processNestedExact, h]]
      rw [ih, hf]
    · have hf : firstHit (c :: rest) key = some (c.2.index key) := by
        unfold firstHit
        rw [List.map_cons]
        exact List.find?_cons_of_pos _ (by simp [h])
      rw [show processNestedExact key uuid rank (c :: rest)
          = pushObs rank key uuid (c.2.index key) by
        rcases c with ⟨cn, stats⟩
        simp [processNestedExact, h]]
      rw [hf]

/-- C5: in exact mode on a nested-schema record, the pushed value is the
lookup of the key in the first category (in iteration order) where it is
non-null, and nothing is pushed when the key is null or absent in every
category; at most one observation is contributed per file. -/
theorem c5_exact_nested_first_category (args : Args) (uuid : String) (j : JsonValue)
    (rank : Rank) (hex : args.exact = true)
    (hobj : (j.index "stats").is_object = true) :
    processRecord args uuid j rank =
      (match firstHit (j.index "stats").entries args.key with
       | none => rank
       | some v => pushObs rank args.key uuid v)
    ∧ countObs (processRecord args uuid j rank) ≤ countObs rank + 1 := by
  have hpr : processRecord args uuid j rank
      = processNestedExact args.key uuid rank (j.index "stats").entries := by
    simp [processRecord, hobj, hex]
  constructor
  · rw [hpr, processNestedExact_eq]
  · rw [hpr, processNestedExact_eq]
    cases hfh : firstHit (j.index "stats").entries args.key with
    | none => exact Nat.le_succ _
    | some v => rw [countObs_pushObs]

/-- C5 (witness): a key present in two categories contributes exactly one
observation, taken from the first category. -/
theorem c5_witness :
    processRecord { key := "k", inverse := false, exact := true, show_uuid := false, limit := 9961 }
      "u" (JsonValue.obj [("stats", JsonValue.obj
        [("A", JsonValue.obj [("k", JsonValue.num 1)]),
         ("B", JsonValue.obj [("k", JsonValue.num 2)])])]) []
      = [("k", ([("u", JsonValue.num 1)], true))] :=
  (c5_exact_nested_first_category
    { key := "k", inverse := false, exact := true, show_uuid := false, limit := 9961 }
    "u" (JsonValue.obj [("stats", JsonValue.obj
      [("A", JsonValue.obj [("k", JsonValue.num 1)]),
       ("B", JsonValue.obj [("k", JsonValue.num 2)])])]) [] rfl rfl).1.trans rfl

/-- C6: the numeric flag of a bucket is fixed at the first insertion, from
whether the first value is numeric, and later insertions into the bucket
never change it. -/
theorem c6_numeric_flag_fixed_at_first_insert (rank : Rank) (key uuid : String)
    (v : JsonValue) :
    flagOf (pushObs rank key uuid v) key = some ((flagOf rank key).getD v.is_number) := by
  induction rank with
  | nil => simp [flagOf, pushObs]
  | cons hd rest ih =>
    rcases hd with ⟨k0, vec, numf⟩
    by_cases hk : (k0 == key) = true
    · simp [flagOf, pushObs, hk, List.find?_cons_of_pos]
    · simp only [pushObs, hk, if_neg, Bool.false_eq_true, if_false]
      rw [show flagOf ((k0, (vec, numf)) :: pushObs rest key uuid v) key
          = flagOf (pushObs rest key uuid v) key by
        simp [flagOf, List.find?_cons_of_neg, hk]]
      rw [show flagOf ((k0, (vec, numf)) :: rest) key = flagOf rest key by
        simp [flagOf, List.find?_cons_of_neg, hk]]
      exact ih

/-- C2 (counterexample): in substring mode on a flat-schema record, a field
whose value is JSON null does produce an observation: the null is stored in
the bucket. -/
theorem c2_counterexample :
    processRecord { key := "b", inverse := false, exact := false, show_uuid := false, limit := 9961 }
        "u" (JsonValue.obj [("abc", JsonValue.null)]) []
      = [("abc", ([("u", JsonValue.null)], false))]
    ∧ obsIn [("abc", ([("u", JsonValue.null)], false))] "abc" "u" JsonValue.null := by
  refine ⟨rfl, ⟨("abc", ([("u", JsonValue.null)], false)), ?_, rfl, ?_⟩⟩
  · exact List.mem_singleton.mpr rfl
  · exact List.mem_singleton.mpr rfl

/-- C2 (amended): null values are treated as absent only in exact mode: in
exact mode (both schemas) every observation added by a record is non-null,
while in substring mode a matching null-valued field does produce an
observation. -/
theorem c2_null_skipped_only_in_exact_mode :
    (∀ (key : String) (inv su : Bool) (lim : Nat) (uuid : String) (j : JsonValue)
        (rank : Rank) (k u : String) (v : JsonValue),
      obsIn (processRecord ⟨key, inv, true, su, lim⟩ uuid j rank) k u v →
      obsIn rank k u v ∨ v.is_null = false)
    ∧ obsIn (processRecord ⟨"b", false, false, false, 9961⟩ "u"
        (JsonValue.obj [("abc", JsonValue.null)]) []) "abc" "u" JsonValue.null := by
  constructor
  · intro key inv su lim uuid j rank k u v h
    by_cases hobj : (j.index "stats").is_object = true
    · rw [show processRecord ⟨key, inv, true, su, lim⟩ uuid j rank
          = processNestedExact key uuid rank (j.index "stats").entries by
        simp [processRecord, hobj]] at h
      rw [processNestedExact_eq] at h
      cases hfh : firstHit (j.index "stats").entries key with
      | none =>
        rw [hfh] at h
        exact Or.inl h
      | some v0 =>
        rw [hfh] at h
        rcases pushObs_obsIn _ _ _ _ _ _ _ h with hl | ⟨_, _, hv⟩
        · exact Or.inl hl
        · right
          have hp := List.find?_some hfh
          rw [hv]
          simpa using hp
    · rw [show processRecord ⟨key, inv, true, su, lim⟩ uuid j rank
          = processFlatExact key uuid j rank by
        simp [processRecord, hobj]] at h
      unfold processFlatExact at h
      by_cases hnull : (j.index key).is_null = true
      · rw [if_pos hnull] at h
        exact Or.inl h
      · rw [if_neg hnull] at h
        rcases pushObs_obsIn _ _ _ _ _ _ _ h with hl | ⟨_, _, hv⟩
        · exact Or.inl hl
        · right
          rw [hv]
          simpa using hnull
  · show obsIn [("abc", ([("u", JsonValue.null)], false))] "abc" "u" JsonValue.null
    exact ⟨("abc", ([("u", JsonValue.null)], false)),
      List.mem_singleton.mpr rfl, rfl, List.mem_singleton.mpr rfl⟩

/-- C2 (witness): the exact-mode part of the amended claim applied to a
concrete record holding a numeric value. -/
theorem c2_witness :
    obsIn ([] : Rank) "k" "u" (JsonValue.num 5) ∨ (JsonValue.num 5).is_null = false :=
  c2_null_skipped_only_in_exact_mode.1 "k" false false 9961 "u"
    (JsonValue.obj [("k", JsonValue.num 5)]) [] "k" "u" (JsonValue.num 5)
    (show obsIn [("k", ([("u", JsonValue.num 5)], true))] "k" "u" (JsonValue.num 5) from
      ⟨("k", ([("u", JsonValue.num 5)], true)),
        List.mem_singleton.mpr rfl, rfl, List.mem_singleton.mpr rfl⟩)

theorem as_f64_eq_none (v : JsonValue) (h : v.is_number = false) : v.as_f64 = none := by
  cases v <;> simp_all [JsonValue.is_number, JsonValue.as_f64]

theorem convAll_eq_none (obs : List Obs) (p : Obs) (hp : p ∈ obs)
    (hn : p.2.as_f64 = none) : convAll obs = none := by
  induction obs with
  | nil => cases hp
  | cons q rest ih =>
    rcases List.mem_cons.mp hp with h1 | h2
    · subst h1
      simp [convAll, hn]
    · unfold convAll
      cases hq : q.2.as_f64 with
      | none => rfl
      | some x => rw [ih h2]

theorem convAll_map_fst (obs : List Obs) (tagged : List (Obs × ℚ))
    (h : convAll obs = some tagged) : tagged.map Prod.fst = obs := by
  induction obs generalizing tagged with
  | nil =>
    have : tagged = [] := by simpa [convAll] using h.symm
    simp [this]
  | cons q rest ih =>
    unfold convAll at h
    cases hq : q.2.as_f64 with
    | none => rw [hq] at h; cases h
    | some x =>
      rw [hq] at h
      cases hc : convAll rest with
      | none => rw [hc] at h; cases h
      | some t =>
        rw [hc] at h
        injection h with he
        subst he
        simp [ih t hc]

theorem convAll_tags (obs : List Obs) (tagged : List (Obs × ℚ))
    (h : convAll obs = some tagged) : ∀ p ∈ tagged, p.1.2.as_f64 = some p.2 := by
  induction obs generalizing tagged with
  | nil =>
    have : tagged = [] := by simpa [convAll] using h.symm
    subst this
    intro p hp
    cases hp
  | cons q rest ih =>
    unfold convAll at h
    cases hq : q.2.as_f64 with
    | none => rw [hq] at h; cases h
    | some x =>
      rw [hq] at h
      cases hc : convAll rest with
      | none => rw [hc] at h; cases h
      | some t =>
        rw [hc] at h
        injection h with he
        subst he
        intro p hp
        rcases List.mem_cons.mp hp with h1 | h2
        · subst h1
          exact hq
        · exact ih t hc p h2

theorem obsRel_total (inverse : Bool) (a b : Obs × ℚ) :
    obsRel inverse a b ∨ obsRel inverse b a := by
  unfold obsRel obsLe
  cases inverse
  · simpa using le_total a.2 b.2
  · simpa using le_total b.2 a.2

theorem obsRel_trans (inverse : Bool) (a b c : Obs × ℚ)
    (hab : obsRel inverse a b) (hbc : obsRel inverse b c) : obsRel inverse a c := by
  unfold obsRel obsLe at *
  cases inverse
  · simp only [if_false, cond_false, Bool.false_eq_true, decide_eq_true_eq] at *
    exact le_trans hab hbc
  · simp only [if_true, cond_true, decide_eq_true_eq] at *
    exact le_trans hbc hab

/-- C3 (counterexample): a bucket whose first value is numeric gets flag
true; if it later received a non-numeric value, presentation does NOT skip
sorting — the conversion of the stored value fails inside the sort
comparator (the panic), so rendering the bucket fails. -/
theorem c3_counterexample :
    pushObs (pushObs [] "k" "u" (JsonValue.num 1)) "k" "w" (JsonValue.str "x")
      = [("k", ([("u", JsonValue.num 1), ("w", JsonValue.str "x")], true))]
    ∧ presentBucket false true [("u", JsonValue.num 1), ("w", JsonValue.str "x")] = none :=
  ⟨rfl, rfl⟩

/-- C3 (amended): a bucket whose numeric flag is true is always sorted;
when it holds at least two observations one of which is non-numeric, the
float conversion inside the comparator fails, so rendering panics rather
than skipping the sort. Sorting is skipped only for buckets whose numeric
flag is false, and those never fail. -/
theorem c3_numeric_bucket_with_non_numeric_panics (inverse : Bool) (obs : List Obs)
    (p : Obs) (h2 : 2 ≤ obs.length) (hp : p ∈ obs) (hn : p.2.is_number = false) :
    presentBucket inverse true obs = none
    ∧ (∀ obs2 : List Obs, presentBucket inverse false obs2 = some obs2) := by
  constructor
  · have hconv := convAll_eq_none obs p hp (as_f64_eq_none _ hn)
    show sortBucket inverse obs = none
    unfold sortBucket
    rw [if_neg (by omega), hconv]
  · intro obs2
    rfl

/-- C3 (witness): a concrete numeric-flagged bucket containing a string
fails to render; a non-numeric-flagged bucket renders unchanged. -/
theorem c3_witness :
    presentBucket false true [("u", JsonValue.num 1), ("w", JsonValue.str "x")] = none
    ∧ presentBucket false false [("u", JsonValue.str "y")] = some [("u", JsonValue.str "y")] :=
  ⟨(c3_numeric_bucket_with_non_numeric_panics false
      [("u", JsonValue.num 1), ("w", JsonValue.str "x")]
      ("w", JsonValue.str "x") (by decide)
      (List.mem_cons_of_mem _ (List.mem_singleton.mpr rfl)) rfl).1,
   (c3_numeric_bucket_with_non_numeric_panics false
      [("u", JsonValue.num 1), ("w", JsonValue.str "x")]
      ("w", JsonValue.str "x") (by decide)
      (List.mem_cons_of_mem _ (List.mem_singleton.mpr rfl)) rfl).2
     [("u", JsonValue.str "y")]⟩

/-- C7: whenever a numeric-flagged bucket renders, the rendered sequence is
a permutation of the bucket sorted by the floating-point comparison of the
values, ascending by default and descending when the inverse flag is set;
a non-numeric-flagged bucket always renders in first-insertion order,
regardless of the inverse flag. -/
theorem c7_sort_policy (inverse : Bool) (obs out : List Obs)
    (h : presentBucket inverse true obs = some out) :
    out.Perm obs
    ∧ List.Chain' (fun a b => ∃ qa qb, a.2.as_f64 = some qa ∧ b.2.as_f64 = some qb ∧
        cond inverse (qb ≤ qa) (qa ≤ qb)) out
    ∧ (∀ obs2 : List Obs, presentBucket inverse false obs2 = some obs2) := by
  have h2 : sortBucket inverse obs = some out := h
  unfold sortBucket at h2
  by_cases hlen : obs.length ≤ 1
  · rw [if_pos hlen] at h2
    injection h2 with he
    subst he
    refine ⟨List.Perm.refl _, ?_, fun obs2 => rfl⟩
    rcases obs with _ | ⟨x, _ | ⟨y, t⟩⟩
    · exact List.chain'_nil
    · exact List.chain'_singleton x
    · simp at hlen
  · rw [if_neg hlen] at h2
    cases hc : convAll obs with
    | none => rw [hc] at h2; cases h2
    | some tagged =>
      rw [hc] at h2
      injection h2 with he
      have hfst := convAll_map_fst obs tagged hc
      have htags := convAll_tags obs tagged hc
      subst he
      refine ⟨hfst ▸ ((List.perm_insertionSort _ tagged).map Prod.fst), ?_, fun obs2 => rfl⟩
      letI : IsTotal (Obs × ℚ) (obsRel inverse) := ⟨obsRel_total inverse⟩
      letI : IsTrans (Obs × ℚ) (obsRel inverse) := ⟨fun a b c => obsRel_trans inverse a b c⟩
      have hs : List.Sorted (obsRel inverse) (List.insertionSort (obsRel inverse) tagged) :=
        List.sorted_insertionSort _ _
      have hmem : ∀ p ∈ List.insertionSort (obsRel inverse) tagged,
          p.1.2.as_f64 = some p.2 := by
        intro p hp
        exact htags p (by rwa [List.mem_insertionSort] at hp)
      have hpw : (List.insertionSort (obsRel inverse) tagged).Pairwise
          (fun a b => ∃ qa qb, a.1.2.as_f64 = some qa ∧ b.1.2.as_f64 = some qb ∧
            cond inverse (qb ≤ qa) (qa ≤ qb)) := by
        refine hs.imp_of_mem ?_
        intro a b ha hb hr
        refine ⟨a.2, b.2, hmem a ha, hmem b hb, ?_⟩
        unfold obsRel obsLe at hr
        cases inverse
        · simpa using hr
        · simpa using hr
      exact (List.pairwise_map.mpr hpw).chain'

/-- C7 (witness): a concrete two-element numeric bucket renders sorted
ascending. -/
theorem c7_witness :
    ([("b", JsonValue.num 1), ("a", JsonValue.num 3)] : List Obs).Perm
        [("a", JsonValue.num 3), ("b", JsonValue.num 1)]
    ∧ List.Chain' (fun a b => ∃ qa qb, a.2.as_f64 = some qa ∧ b.2.as_f64 = some qb ∧
        cond false (qb ≤ qa) (qa ≤ qb)) [("b", JsonValue.num 1), ("a", JsonValue.num 3)]
    ∧ (∀ obs2 : List Obs, presentBucket false false obs2 = some obs2) :=
  c7_sort_policy false [("a", JsonValue.num 3), ("b", JsonValue.num 1)]
    [("b", JsonValue.num 1), ("a", JsonValue.num 3)] rfl

/-- C4 (counterexample): on a whitelist whose second entry is missing its
uuid, loading reports failure, yet the first (well-formed) entry HAS been
inserted into the identity table and remains there. -/
theorem c4_counterexample :
    (load_whitelist IdTable.empty (JsonValue.arr
      [JsonValue.obj [("uuid", JsonValue.str "a"), ("name", JsonValue.str "A")],
       JsonValue.obj [("name", JsonValue.str "B")]])).2 = false
    ∧ (load_whitelist IdTable.empty (JsonValue.arr
      [JsonValue.obj [("uuid", JsonValue.str "a"), ("name", JsonValue.str "A")],
       JsonValue.obj [("name", JsonValue.str "B")]])).1 "a" = some "A" :=
  ⟨rfl, rfl⟩

/-- C4 (amended): a whitelist entry missing its uuid or name aborts loading
at that entry with an error: the faulty entry and everything after it
contribute nothing, but the entries before it have already been inserted
and remain in the table (other sources are loaded independently of the
failure). -/
theorem c4_whitelist_abort_keeps_earlier_entries (m : IdTable) (good : List JsonValue)
    (bad : JsonValue) (rest : List JsonValue)
    (hg : ∀ v ∈ good, wfEntry v = true) (hb : wfEntry bad = false) :
    load_whitelist_entries m (good ++ bad :: rest)
      = ((load_whitelist_entries m good).1, false) := by
  induction good generalizing m with
  | nil =>
    simp only [List.nil_append]
    unfold load_whitelist_entries
    cases hu : (bad.index "uuid").as_str with
    | none => rfl
    | some u =>
      cases hn : (bad.index "name").as_str with
      | none => rfl
      | some n =>
        exfalso
        rw [wfEntry, hu, hn] at hb
        simp at hb
  | cons v good ih =>
    have hv := hg v (List.mem_cons_self _ _)
    cases hu : (v.index "uuid").as_str with
    | none =>
      exfalso
      rw [wfEntry, hu] at hv
      simp at hv
    | some u =>
      cases hn : (v.index "name").as_str with
      | none =>
        exfalso
        rw [wfEntry, hu, hn] at hv
        simp at hv
      | some n =>
        simp only [List.cons_append]
        simp only [load_whitelist_entries, hu, hn]
        exact ih _ (fun w hw => hg w (List.mem_cons_of_mem _ hw))

/-- C4 (witness): the amended claim at a concrete whitelist with one good
entry, one faulty entry and one trailing entry. -/
theorem c4_witness :
    load_whitelist_entries IdTable.empty
      [JsonValue.obj [("uuid", JsonValue.str "a"), ("name", JsonValue.str "A")],
       JsonValue.obj [("name", JsonValue.str "B")],
       JsonValue.obj [("uuid", JsonValue.str "c"), ("name", JsonValue.str "C")]]
      = ((load_whitelist_entries IdTable.empty
          [JsonValue.obj [("uuid", JsonValue.str "a"), ("name", JsonValue.str "A")]]).1,
         false) :=
  c4_whitelist_abort_keeps_earlier_entries IdTable.empty
    [JsonValue.obj [("uuid", JsonValue.str "a"), ("name", JsonValue.str "A")]]
    (JsonValue.obj [("name", JsonValue.str "B")])
    [JsonValue.obj [("uuid", JsonValue.str "c"), ("name", JsonValue.str "C")]]
    (by decide) (by decide)

theorem load_wl_ok (vs : List JsonValue) (m : IdTable)
    (hwf : ∀ v ∈ vs, wfEntry v = true) :
    load_whitelist_entries m vs = (applyWl m (vs.map pairOf), true) := by
  induction vs generalizing m with
  | nil => rfl
  | cons v rest ih =>
    have hv := hwf v (List.mem_cons_self _ _)
    cases hu : (v.index "uuid").as_str with
    | none =>
      exfalso
      rw [wfEntry, hu] at hv
      simp at hv
    | some u =>
      cases hn : (v.index "name").as_str with
      | none =>
        exfalso
        rw [wfEntry, hu, hn] at hv
        simp at hv
      | some n =>
        simp only [load_whitelist_entries, hu, hn]
        rw [ih _ (fun w hw => hwf w (List.mem_cons_of_mem _ hw))]
        have hpv : pairOf v = (u, n) := by simp [pairOf, hu, hn]
        rw [List.map_cons, hpv]
        rfl

theorem load_over_ok (vs : List JsonValue) (m : IdTable)
    (hwf : ∀ v ∈ vs, wfEntry v = true) :
    load_user_name_entries m vs = (applyOver m (vs.map pairOf), true) := by
  induction vs generalizing m with
  | nil => rfl
  | cons v rest ih =>
    have hv := hwf v (List.mem_cons_self _ _)
    cases hu : (v.index "uuid").as_str with
    | none =>
      exfalso
      rw [wfEntry, hu] at hv
      simp at hv
    | some u =>
      cases hn : (v.index "name").as_str with
      | none =>
        exfalso
        rw [wfEntry, hu, hn] at hv
        simp at hv
      | some n =>
        simp only [load_user_name_entries, hu, hn]
        rw [ih _ (fun w hw => hwf w (List.mem_cons_of_mem _ hw))]
        have hpv : pairOf v = (u, n) := by simp [pairOf, hu, hn]
        rw [List.map_cons, hpv]
        rfl

theorem load_cache_ok (es : List (String × JsonValue)) (m : IdTable)
    (hwf : ∀ e ∈ es, (e.2.as_str).isSome = true) :
    load_user_name_cache_entries m es
      = (applyOver m (es.map (fun e => (e.1, (e.2.as_str).getD ""))), true) := by
  induction es generalizing m with
  | nil => rfl
  | cons e rest ih =>
    rcases e with ⟨eu, ev⟩
    have hv := hwf (eu, ev) (List.mem_cons_self _ _)
    cases hn : ev.as_str with
    | none =>
      rw [hn] at hv
      simp at hv
    | some n =>
      simp only [load_user_name_cache_entries, hn]
      rw [ih _ (fun w hw => hwf w (List.mem_cons_of_mem _ hw))]
      rw [List.map_cons]
      have hpv : ((eu, ev).1, (((eu, ev).2).as_str).getD "") = (eu, n) := by simp [hn]
      rw [hpv]
      rfl

theorem applyWl_lookup (ps : List (String × String)) (m : IdTable) (k : String) :
    applyWl m ps k
      = match m k with
        | some n => some n
        | none => lookupFirst ps k := by
  induction ps generalizing m with
  | nil =>
    cases hm : m k <;> simp [applyWl, lookupFirst, hm]
  | cons p ps ih =>
    by_cases hc : (m p.1).isSome = true
    · have hstep : applyWl m (p :: ps) = applyWl m ps := by
        simp [applyWl, List.foldl_cons, hc]
      rw [hstep, ih]
      cases hm : m k with
      | some n => rfl
      | none =>
        have hne : (p.1 == k) = false := by
          rw [beq_eq_false_iff_ne]
          intro he
          rw [he, hm] at hc
          simp at hc
        simp [lookupFirst, List.find?_cons_of_neg, hne]
    · have hstep : applyWl m (p :: ps) = applyWl (m.insert p.1 p.2) ps := by
        simp [applyWl, List.foldl_cons, hc]
      rw [hstep, ih]
      by_cases hk : p.1 = k
      · subst hk
        have hmk : m p.1 = none := by
          cases hmm : m p.1 with
          | none => rfl
          | some x =>
            rw [hmm] at hc
            simp at hc
        have hins : (m.insert p.1 p.2) p.1 = some p.2 := by simp [IdTable.insert]
        rw [hins, hmk]
        simp [lookupFirst, List.find?_cons_of_pos]
      · have hbe : (k == p.1) = false := by
          rw [beq_eq_false_iff_ne]
          exact fun he => hk he.symm
        have hins : (m.insert p.1 p.2) k = m k := by simp [IdTable.insert, hbe]
        rw [hins]
        cases hm : m k with
        | some n => rfl
        | none =>
          have hbe2 : (p.1 == k) = false := by
            rw [beq_eq_false_iff_ne]
            exact hk
          simp [lookupFirst, List.find?_cons_of_neg, hbe2]

theorem applyOver_lookup (ps : List (String × String)) (m : IdTable) (k : String) :
    applyOver m ps k
      = match lookupLast ps k with
        | some n => some n
        | none => m k := by
  induction ps generalizing m with
  | nil => simp [applyOver, lookupLast, lookupFirst]
  | cons p ps ih =>
    rw [show applyOver m (p :: ps) = applyOver (m.insert p.1 p.2) ps from rfl, ih]
    have hll : lookupLast (p :: ps) k
        = match lookupLast ps k with
          | some n => some n
          | none => lookupFirst [p] k := by
      unfold lookupLast lookupFirst
      rw [List.reverse_cons, List.find?_append]
      cases hf : ps.reverse.find? (fun q => q.1 == k) with
      | some a => simp [hf]
      | none => simp [hf]
    rw [hll]
    cases hl : lookupLast ps k with
    | some n => rfl
    | none =>
      by_cases hk : k = p.1
      · subst hk
        simp [IdTable.insert, lookupFirst, List.find?_cons_of_pos]
      · have hbe : (k == p.1) = false := by
          rw [beq_eq_false_iff_ne]
          exact hk
        have hbe2 : (p.1 == k) = false := by
          rw [beq_eq_false_iff_ne]
          exact fun he => hk he.symm
        simp [IdTable.insert, hbe, lookupFirst, hbe2]

/-- C8: with all three sources well-formed, the identity table layers them
in fixed precedence — the whitelist fills only absent uuids (first
occurrence wins within it), the name-cache then overwrites unconditionally,
and the user-registry overwrites unconditionally last — so a uuid present
in several sources gets the user-registry name, else the name-cache name,
else the whitelist name. -/
theorem c8_identity_precedence (wl cache reg : JsonValue) (k : String)
    (hwl : ∀ v ∈ wl.members, wfEntry v = true)
    (hc : ∀ e ∈ cache.entries, (e.2.as_str).isSome = true)
    (hr : ∀ v ∈ reg.members, wfEntry v = true) :
    buildIdMap wl cache reg k
      = match lookupLast (arrPairs reg) k with
        | some n => some n
        | none =>
          match lookupLast (cachePairs cache) k with
          | some n => some n
          | none => lookupFirst (arrPairs wl) k := by
  unfold buildIdMap load_whitelist load_user_name_cache load_user_name
  rw [load_wl_ok wl.members IdTable.empty hwl]
  rw [load_cache_ok cache.entries _ hc]
  rw [load_over_ok reg.members _ hr]
  show applyOver (applyOver (applyWl IdTable.empty (arrPairs wl)) (cachePairs cache))
      (arrPairs reg) k = _
  rw [applyOver_lookup]
  cases lookupLast (arrPairs reg) k with
  | some n => rfl
  | none =>
    rw [applyOver_lookup]
    cases lookupLast (cachePairs cache) k with
    | some n => rfl
    | none =>
      rw [applyWl_lookup]
      rfl

/-- C8 (witness): a uuid present in all three sources resolves to the
user-registry name. -/
theorem c8_witness :
    buildIdMap
      (JsonValue.arr [JsonValue.obj [("uuid", JsonValue.str "a"), ("name", JsonValue.str "W")]])
      (JsonValue.obj [("a", JsonValue.str "C")])
      (JsonValue.arr [JsonValue.obj [("uuid", JsonValue.str "a"), ("name", JsonValue.str "R")]])
      "a" = some "R" :=
  (c8_identity_precedence
    (JsonValue.arr [JsonValue.obj [("uuid", JsonValue.str "a"), ("name", JsonValue.str "W")]])
    (JsonValue.obj [("a", JsonValue.str "C")])
    (JsonValue.arr [JsonValue.obj [("uuid", JsonValue.str "a"), ("name", JsonValue.str "R")]])
    "a" (by decide) (by decide) (by decide)).trans rfl

/-- C10 (witness): concrete identifiers extracted from filenames with and
without a dot. -/
theorem c10_witness :
    uuidOfFileName "abcd" = "abcd" ∧ uuidOfFileName ("1234-ab" ++ "." ++ "json") = "1234-ab" :=
  ⟨c10_dirs_skipped_and_identifier.2.1 "abcd" (by decide),
   c10_dirs_skipped_and_identifier.2.2 "1234-ab" "json" (by decide)⟩

end StatsRank
